import Mathlib

/-!
Verification of the `dumper` repository (directory/file dump tool).

The Python sources under `src/dumper/` are shallowly embedded below:

* `config.py` — the literal pattern lists.
* `core.py` — `is_ignored`, `walk_files`, `dump_tree`,
  `sum_up_lines_async` and `dump_files`.
* `cli.py` / `settings.py` — the CLI entry point and the pydantic
  settings object.

Filesystem state is modelled as an inductive tree (`FSNode`); paths are
lists of path components (Python `Path.parts`).  Python `dict.fromkeys`
deduplication, `list.remove` (first occurrence, `ValueError` when
absent), asyncio's `gather` (result slots indexed by task position,
filled in an arbitrary completion order) and the pydantic/pathlib
behaviours relied on by the code are each given an explicit model with
a doc comment naming the library behaviour they translate.
-/

namespace Dumper

/-! ## config.py -/

/-- `config.PYTHON_IGNORE_PATTERNS`. -/
def PYTHON_IGNORE_PATTERNS : List String :=
  [".venv", "venv", "__pycache__", ".ruff_cache", ".mypy_cache",
   ".pytest_cache", ".tox", ".eggs", "build", "dist", ".coverage",
   ".python-version", "poetry.lock", "_.egg-info"]

/-- `config.NODE_IGNORE_PATTERNS`. -/
def NODE_IGNORE_PATTERNS : List String :=
  ["node_modules", ".next", ".nuxt", ".angular", "bower_components",
   "jspm_packages", "coverage", ".cache", "build", "dist", ".eslintcache",
   "yarn-error.log", "yarn.lock", "package-lock.json", "pnpm-lock.yaml",
   ".DS_Store"]

/-- `config.GIT_IGNORE_PATTERNS`. -/
def GIT_IGNORE_PATTERNS : List String :=
  [".git", ".gitmodules", ".gitattributes", ".gitkeep", ".git-rewrite"]

/-- `config.INTELLIJ_IGNORE_PATTERNS`. -/
def INTELLIJ_IGNORE_PATTERNS : List String := [".idea"]

/-- `config.GENERAL_IGNORE_PATTERNS` (defined in `config.py` but never
imported by `core.py`). -/
def GENERAL_IGNORE_PATTERNS : List String :=
  [".pdf", ".doxc", ".xlsx", ".pem", ".pyc", ]

/-- `core.DEFAULT_IGNORE_PATTERNS`: the module-level mutable list built by
splicing the four imported lists.  Note `"build"`, `"dist"` and
`"coverage"`/`".coverage"` overlaps: `"build"` and `"dist"` occur twice. -/
def DEFAULT_IGNORE_PATTERNS : List String :=
  PYTHON_IGNORE_PATTERNS ++ NODE_IGNORE_PATTERNS ++
  GIT_IGNORE_PATTERNS ++ INTELLIJ_IGNORE_PATTERNS

/-! ## Python list primitives used by `dump_files` -/

/-- The loop building `dict.fromkeys(l)`: keep an element iff it was not
seen before, in first-occurrence order. -/
def pyDedupAux (seen : List String) : List String → List String
  | [] => []
  | a :: l => if a ∈ seen then pyDedupAux seen l else a :: pyDedupAux (seen ++ [a]) l

/-- Python `list(dict.fromkeys(l))`: drop every occurrence of an element
after its first, keeping first-occurrence order. -/
def pyDedup (l : List String) : List String :=
  pyDedupAux [] l

/-- Python `l.remove(x)`: delete the first occurrence of `x`; raise
`ValueError` (here `none`) when `x` is absent. -/
def pyRemove : List String → String → Option (List String)
  | [], _ => none
  | a :: l, x => if a = x then some l else (pyRemove l x).map (fun r => a :: r)

/-- The keep-pattern comprehension in `dump_files`
(`[ignore_patterns.remove(p) for p in keep_patterns if p in ignore_patterns]`):
each keep pattern present in the current list is removed in place, one
after the other.  `none` would signal a `ValueError` from `remove`. -/
def applyKeepPatterns (ign : List String) (keep : List String) : Option (List String) :=
  keep.foldlM (fun acc p => if p ∈ acc then pyRemove acc p else some acc) ign

/-- The merge step of `dump_files` (lines 172-177): with user-supplied
additions the merged list is `list(dict.fromkeys([*ignore_patterns,
*DEFAULT_IGNORE_PATTERNS]))`, a fresh list; with `None` the module-level
default list itself (`g`) is aliased. -/
def mergeIgnorePatterns (g : List String) : Option (List String) → List String
  | some ps => pyDedup (ps ++ g)
  | none => g

/-- Lines 172-184 of `dump_files` as a state transformer over the
module-level `DEFAULT_IGNORE_PATTERNS` list `g`: the result is the
effective pattern list together with the list the module global holds
after the call (Python aliasing: when `ignore` is `None` the in-place
`remove` calls mutate the global itself). -/
def resolveIgnorePatterns (g : List String) (ignore keep : Option (List String)) :
    Option (List String × List String) :=
  let merged := mergeIgnorePatterns g ignore
  let eff? := match keep with
    | none => some merged
    | some ks => applyKeepPatterns merged ks
  eff?.map (fun eff => (eff, if ignore.isNone then eff else g))

/-! ## Filesystem model -/

/-- A filesystem object: a regular file with its readable content
(`Except.error msg` models an `OSError` with message `msg` raised when
opening/reading it), or a directory with children in scandir order. -/
inductive FSNode where
  | file (name : String) (content : Except String (List String)) : FSNode
  | dir (name : String) (children : List FSNode) : FSNode

def FSNode.name : FSNode → String
  | .file n _ => n
  | .dir n _ => n

def FSNode.isDir : FSNode → Bool
  | .file _ _ => false
  | .dir _ _ => true

def FSNode.isFile : FSNode → Bool
  | .file _ _ => true
  | .dir _ _ => false

def FSNode.children : FSNode → List FSNode
  | .file _ _ => []
  | .dir _ cs => cs

/-- `core.is_ignored(path, ignore_patterns)`:
`any(part in ignore_patterns for part in path.parts)`. -/
def is_ignored (parts : List String) (ignore_patterns : List String) : Bool :=
  parts.any (fun part => ignore_patterns.contains part)

/-! ## walk_files -/

/-- The `OSError` subclasses `pathlib` raises while iterating. -/
inductive PyOSError where
  | fileNotFoundError
  | notADirectoryError
deriving Repr, DecidableEq

mutual

/-- All descendants of a node with their path parts relative to it, in
depth-first order (`Path.rglob("*")` enumerates every entry of the
subtree; the claims below do not depend on the precise enumeration
order, only on its contents). -/
def rglobNode (rel : List String) : FSNode → List (List String × FSNode)
  | .file _ _ => []
  | .dir _ cs => rglobChildren rel cs

/-- The descendants contributed by a list of sibling entries. -/
def rglobChildren (rel : List String) : List FSNode → List (List String × FSNode)
  | [] => []
  | c :: cs =>
    (rel ++ [c.name], c) :: rglobNode (rel ++ [c.name]) c ++ rglobChildren rel cs

end

/-- `core.walk_files`, keeping each yielded path's node alongside its
parts (the source yields `Path` objects; `dump_files` then opens them).
Library behaviour modelled: `Path.iterdir()` raises `FileNotFoundError`
for a missing root and `NotADirectoryError` for a file root, while
`Path.rglob` checks `is_dir()` on the root first and yields nothing for
a missing or non-directory root (CPython `pathlib`'s selector). -/
def walkFilesNodes (rootParts : List String) (root : Option FSNode) (recursive : Bool)
    (g : List String) (ignore_patterns : Option (List String)) :
    Except PyOSError (List (List String × FSNode)) :=
  let pats := ignore_patterns.getD g
  if recursive then
    let all := match root with
      | some n => rglobNode [] n
      | none => []
    Except.ok ((all.filter
        (fun e => e.2.isFile && !is_ignored (rootParts ++ e.1) pats)).map
        (fun e => (rootParts ++ e.1, e.2)))
  else
    match root with
    | none => .error .fileNotFoundError
    | some (.file _ _) => .error .notADirectoryError
    | some (.dir _ cs) =>
      .ok ((cs.filter
          (fun c => c.isFile && !is_ignored (rootParts ++ [c.name]) pats)).map
          (fun c => (rootParts ++ [c.name], c)))

/-- `core.walk_files` as seen by a caller: the sequence of yielded paths
(as parts), or the error raised while iterating. -/
def walk_files (rootParts : List String) (root : Option FSNode) (recursive : Bool)
    (g : List String) (ignore_patterns : Option (List String)) :
    Except PyOSError (List (List String)) :=
  (walkFilesNodes rootParts root recursive g ignore_patterns).map
    (fun l => l.map (fun f => f.1))

/-! ## dump_tree -/

/-- Python `"\n".join(lines)`. -/
def joinLines : List String → String
  | [] => ""
  | [l] => l
  | l :: ls => l ++ "\n" ++ joinLines ls

/-- Python `str(path)` on relative parts (POSIX separator). -/
def pathToString (parts : List String) : String :=
  String.intercalate "/" parts

/-- Python `str.__lt__` restricted to the comparisons `sorted` makes:
lexicographic by code point. -/
def pyStrLtAux : List Char → List Char → Bool
  | [], [] => false
  | [], _ :: _ => true
  | _ :: _, [] => false
  | a :: as, b :: bs =>
    if a < b then true else if b < a then false else pyStrLtAux as bs

/-- Python `a < b` on strings. -/
def pyStrLt (a b : String) : Bool :=
  pyStrLtAux a.data b.data

/-- The order `sorted(..., key=lambda x: x.name)` arranges entries in:
`a` may precede `b` iff `b.name < a.name` fails. -/
def nameLe (a b : FSNode) : Prop :=
  pyStrLt b.name a.name = false

instance : DecidableRel nameLe :=
  fun a b => inferInstanceAs (Decidable (pyStrLt b.name a.name = false))

/-- `sorted(path.iterdir(), key=lambda x: x.name)`: stable ascending sort
by entry name. -/
def sortByName (cs : List FSNode) : List FSNode :=
  cs.insertionSort nameLe

/-- One line of `dump_tree`: `f"./{rel}" + ("/" if path.is_dir() else "")`. -/
def renderEntry (e : List String × Bool) : String :=
  "./" ++ String.intercalate "/" e.1 ++ (if e.2 then "/" else "")

/-- The nested `_walk` of `dump_tree`, emitting for every visited node
its path relative to the root together with `is_dir()` (the source
appends `renderEntry` of exactly this pair).  `relParts` is the relative
path of the current node (empty for the root itself), so the node's
`path.parts` is `rootParts ++ relParts`; `maxDepth` is
`len(root.parts) + depth`.  The recursion is driven by `fuel`, the
number of levels the depth bound still admits: the walk maintains
`(rootParts ++ relParts).length + fuel = maxDepth + 1`, so `fuel = 0`
exactly when the literal source check `len(path.parts) > max_depth`
fires and the node is dropped; under that invariant the `fuel = 0`
fallthrough of the inner match is unreachable for directories that
passed the checks. -/
def walkEntries (pats : List String) (maxDepth : Nat) (rootParts : List String)
    (fuel : Nat) (relParts : List String) (n : FSNode) : List (List String × Bool) :=
  if (rootParts ++ relParts).length > maxDepth then []
  else if is_ignored (rootParts ++ relParts) pats then []
  else
    (if relParts.isEmpty then [] else [(relParts, n.isDir)]) ++
    (match n, fuel with
     | .dir _ cs, f + 1 => (sortByName cs).flatMap
         (fun c => walkEntries pats maxDepth rootParts f (relParts ++ [c.name]) c)
     | _, _ => [])

/-- The visited pairs of `dump_tree` (the root is resolved, so
`rootParts` is its absolute parts): `_walk(root)` starts with
`len(root.parts)` parts against `max_depth = len(root.parts) + depth`,
hence a remaining budget of `depth + 1` levels. -/
def dumpTreeEntries (rootParts : List String) (depth : Nat) (pats : List String)
    (root : FSNode) : List (List String × Bool) :=
  walkEntries pats (rootParts.length + depth) rootParts (depth + 1) [] root

/-- The `lines` list `dump_tree` accumulates. -/
def dumpTreeLines (rootParts : List String) (depth : Nat) (pats : List String)
    (root : FSNode) : List String :=
  (dumpTreeEntries rootParts depth pats root).map renderEntry

/-- `core.dump_tree`: `None` ignore patterns default to the module list
`g`; returns `"\n".join(lines)`. -/
def dump_tree (rootParts : List String) (depth : Nat) (g : List String)
    (ignore_patterns : Option (List String)) (root : FSNode) : String :=
  joinLines (dumpTreeLines rootParts depth (ignore_patterns.getD g) root)

mutual

/-- All entries of the subtree rooted at `n`, each with its path parts
relative to the root (`p` being the relative path of `n` itself), in
tree order with no filtering: the candidate set `dump_tree` selects
from. -/
def nodeEntriesAt (p : List String) : FSNode → List (List String × Bool)
  | .file _ _ => [(p, false)]
  | .dir _ cs => (p, true) :: childEntriesAt p cs

/-- The candidate entries contributed by a list of sibling nodes whose
parent has relative path `p`. -/
def childEntriesAt (p : List String) : List FSNode → List (List String × Bool)
  | [] => []
  | c :: cs => nodeEntriesAt (p ++ [c.name]) c ++ childEntriesAt p cs

end

/-- Every entry strictly below the root (the root's own line is not a
candidate: `_walk` never emits `path == root`). -/
def entriesUnder : FSNode → List (List String × Bool)
  | .file _ _ => []
  | .dir _ cs => childEntriesAt [] cs

/-! ## dump_files: content assembly -/

/-- Python `line.rstrip("\n")`: strip every trailing newline character. -/
def pyRstripNl (s : String) : String :=
  String.mk ((s.data.reverse.dropWhile (fun c => c = '\n')).reverse)

/-- `open(path)` on a walked node: a file yields its content or the
`OSError` message caught by `dump_files`; opening a directory raises
`IsADirectoryError` (never reached: `walk_files` yields only files). -/
def FSNode.readContent : FSNode → Except String (List String)
  | .file _ c => c
  | .dir nm _ => .error ("IsADirectoryError: " ++ nm)

/-- One file's block in `dump_files`: the header line, then either the
content lines (`rstrip("\n")` applied to each) or the single synthetic
error line from the `except` branch, then one empty line. -/
def fileBlock (pathStr : String) (content : Except String (List String)) : List String :=
  ("// File content of " ++ pathStr ++ ":") ::
  ((match content with
    | .ok ls => ls.map pyRstripNl
    | .error e => ["// ERROR reading " ++ pathStr ++ ": " ++ e]) ++ [""])

/-- The accumulation loop of `dump_files` (lines 186-199): `lines` gets
one block per walked file, `paths` the corresponding path strings. -/
def assembleFiles (files : List (List String × Except String (List String))) :
    List (List String) × List String :=
  (files.map (fun f => fileBlock (pathToString f.1) f.2),
   files.map (fun f => pathToString f.1))

/-! ## Summarization -/

/-- Python `repr` of a string, as `str` of a list of strings renders its
elements; modelled for the common case: wrap in single quotes, escape
backslash, quote and newline (CPython additionally switches quote style
and escapes other controls; no claim inspects the exact rendering). -/
def pyReprStr (s : String) : String :=
  "'" ++ String.join (s.data.map (fun c =>
    if c = '\\' then "\\\\"
    else if c = '\'' then "\\'"
    else if c = '\n' then "\\n"
    else String.singleton c)) ++ "'"

/-- Python `str(l)` for a list of strings, as the f-string
`f"Sum up the following:\n{line}"` interpolates the *list* `line`. -/
def pyStrListStr (l : List String) : String :=
  "[" ++ String.intercalate ", " (l.map pyReprStr) ++ "]"

/-- One task completion in `asyncio.gather`: the task with index `j`
writes its result into slot `j`. -/
def gatherStep (tasks : List α) (run : α → β) (slots : List (Option β)) (j : Nat) :
    List (Option β) :=
  match tasks[j]? with
  | some t => slots.set j (some (run t))
  | none => slots

/-- `asyncio.gather`'s result collection: every completing task writes
its value into the slot of its own index.  `σ` is the order in which
the tasks complete. -/
def gatherFill (tasks : List α) (run : α → β) (σ : List Nat) : List (Option β) :=
  σ.foldl (gatherStep tasks run) (List.replicate tasks.length none)

/-- Collect the slots once every task has completed (`none` would mean a
task never completed). -/
def sequenceOpts : List (Option β) → Option (List β)
  | [] => some []
  | none :: _ => none
  | some x :: l => (sequenceOpts l).map (fun r => x :: r)

/-- `asyncio.gather(*tasks)`: the returned list holds each task's result
at the task's own position, whatever the completion order `σ`. -/
def gatherModel (tasks : List α) (run : α → β) (σ : List Nat) : Option (List β) :=
  sequenceOpts (gatherFill tasks run σ)

/-- `core.sum_up_lines_async(lines, paths, ...)`: builds one prompt per
file block (the f-string interpolates the Python list of block lines),
creates one `fetch_summary` task per `(path, prompt)` pair from
`zip(paths, prompts)` and awaits `asyncio.gather`.  `oracle`
abstracts the chat-completion call (model name, fixed temperature and
the path-referencing system message folded into it); `σ` is the
completion order of the concurrent calls. -/
def sum_up_lines_async (oracle : String → String → String) (σ : List Nat)
    (lines : List (List String)) (paths : List String) : Option (List String) :=
  let prompts := lines.map (fun line => "Sum up the following:\n" ++ pyStrListStr line)
  gatherModel (paths.zip prompts) (fun t => oracle t.1 t.2) σ

/-! ## dump_files -/

/-- `core.dump_files` over the filesystem model.  `g` is the list the
module global `DEFAULT_IGNORE_PATTERNS` currently holds; the result
carries the dumped string together with the global's list after the
call (see `resolveIgnorePatterns` for the aliasing).  The outer `Option`
is `none` for an uncaught `ValueError` from the keep-pattern removal or
a task that never completed; `Except.error` propagates the `OSError`
raised while iterating `walk_files`. -/
def dump_files (g : List String) (rootParts : List String) (root : Option FSNode)
    (recursive : Bool) (ignore_patterns keep_patterns : Option (List String))
    (sum_up : Bool) (oracle : String → String → String) (σ : List Nat) :
    Option (Except PyOSError (String × List String)) :=
  match resolveIgnorePatterns g ignore_patterns keep_patterns with
  | none => none
  | some (pats, g2) =>
    match walkFilesNodes rootParts root recursive g2 (some pats) with
    | .error e => some (.error e)
    | .ok files =>
      let assembled := assembleFiles (files.map (fun f => (f.1, f.2.readContent)))
      let lines := assembled.1
      let paths := assembled.2
      if sum_up then
        match sum_up_lines_async oracle σ lines paths with
        | none => none
        | some results =>
          some (.ok (joinLines ((lines.zip results).map
            (fun lr => joinLines lr.1 ++ "\n" ++ lr.2 ++ "\n")), g2))
      else
        some (.ok (joinLines (lines.flatMap (fun l => l)), g2))

/-! ## settings.py and cli.py -/

/-- `settings.Settings` (pydantic `BaseSettings`). -/
structure Settings where
  openai_api_key : String

/-- `settings.get_settings()`.  Library behaviour modelled: pydantic
constructs the object from the `OPENAI_API_KEY` environment variable or
the `.env` file; `openai_api_key: str` is declared with no default, so
when neither source supplies a value construction raises a
`ValidationError`. -/
def get_settings (envKey dotenvKey : Option String) : Except String Settings :=
  match envKey.orElse (fun _ => dotenvKey) with
  | some k => Except.ok { openai_api_key := k }
  | none => Except.error "ValidationError: openai_api_key field required"

/-- Python truthiness of `openai_api_key` (`None` and `""` are falsy). -/
def pyTruthyOptStr : Option String → Bool
  | none => false
  | some s => s ≠ ""

/-- The parsed click options of `cli.main` (click has already checked
that `--root` exists and is a directory: `exists=True, file_okay=False`). -/
structure CliArgs where
  rootParts : List String
  root : FSNode
  recursive : Bool
  tree_depth : Nat
  add_ignore_list : List String
  remove_ignore_list : List String
  only_tree : Bool
  sum_up_files : Bool
  openai_api_key : Option String
  verbose : Nat

/-- The body of `cli.main`: resolve the API key (explicit option, then
`settings`, then the environment variable, else raise), build
`ignore_patterns = list(DEFAULT_IGNORE_PATTERNS)` extended with the
additions, echo the tree, exit if `--only-tree`, else run `dump_files`.
The result is the sequence of chunks echoed to stdout, or the raised
exception's message. -/
def cliMain (settings : Settings) (envKey : Option String) (a : CliArgs)
    (g : List String) (oracle : String → String → String) (σ : List Nat) :
    Except String (List String) := do
  if a.sum_up_files then
    if pyTruthyOptStr a.openai_api_key then pure ()
    else if settings.openai_api_key ≠ "" then pure ()
    else if pyTruthyOptStr envKey then pure ()
    else throw (String.append
      "If you want to sum up file contents, " "you need to specify an OpenAI API key.")
  let ignore_patterns := g ++ a.add_ignore_list
  let keep_patterns := a.remove_ignore_list
  let treeOut := dump_tree a.rootParts a.tree_depth g (some ignore_patterns) a.root
  if a.only_tree then
    pure [treeOut]
  else
    match dump_files g a.rootParts (some a.root) a.recursive (some ignore_patterns)
        (some keep_patterns) a.sum_up_files oracle σ with
    | some (.ok out) => pure [treeOut, out.1]
    | some (.error _) => Except.error "OSError"
    | none => Except.error "ValueError"

/-- One CLI invocation: importing `cli.py` runs `settings =
get_settings()` at module level (line 19) before click parses anything;
only if that construction succeeds does `main` run. -/
def runCli (envKey dotenvKey : Option String) (a : CliArgs) (g : List String)
    (oracle : String → String → String) (σ : List Nat) : Except String (List String) :=
  match get_settings envKey dotenvKey with
  | .error e => .error e
  | .ok s => cliMain s envKey a g oracle σ

/-! # Lemmas: pattern-list construction -/

theorem mem_pyDedupAux (l : List String) :
    ∀ (seen : List String) (x : String),
      x ∈ pyDedupAux seen l ↔ x ∈ l ∧ x ∉ seen := by
  induction l with
  | nil => intro seen x; simp [pyDedupAux]
  | cons a l ih =>
    intro seen x
    by_cases ha : a ∈ seen
    · rw [pyDedupAux, if_pos ha, ih]
      constructor
      · rintro ⟨h1, h2⟩; exact ⟨List.mem_cons_of_mem _ h1, h2⟩
      · rintro ⟨h1, h2⟩
        rcases List.mem_cons.mp h1 with rfl | h1
        · exact absurd ha h2
        · exact ⟨h1, h2⟩
    · rw [pyDedupAux, if_neg ha]
      simp only [List.mem_cons, ih, List.mem_append, List.mem_singleton]
      by_cases hx : x = a
      · subst hx; tauto
      · tauto

theorem nodup_pyDedupAux (l : List String) :
    ∀ seen : List String, (pyDedupAux seen l).Nodup := by
  induction l with
  | nil => intro seen; simp [pyDedupAux]
  | cons a l ih =>
    intro seen
    by_cases ha : a ∈ seen
    · rw [pyDedupAux, if_pos ha]; exact ih seen
    · rw [pyDedupAux, if_neg ha]
      refine List.Nodup.cons ?_ (ih _)
      intro hmem
      have := (mem_pyDedupAux l _ a).mp hmem
      exact this.2 (by simp)

theorem mem_pyDedup (l : List String) (x : String) : x ∈ pyDedup l ↔ x ∈ l := by
  rw [pyDedup, mem_pyDedupAux]; simp

theorem nodup_pyDedup (l : List String) : (pyDedup l).Nodup :=
  nodup_pyDedupAux l []

theorem pyRemove_of_mem (l : List String) (x : String) (h : x ∈ l) :
    pyRemove l x = some (l.erase x) := by
  induction l with
  | nil => cases h
  | cons a l ih =>
    by_cases hax : a = x
    · subst hax; simp [pyRemove, List.erase_cons_head]
    · rcases List.mem_cons.mp h with rfl | h1
      · exact absurd rfl hax
      · rw [pyRemove, if_neg hax, ih h1]
        simp [List.erase_cons, hax]

theorem applyKeepPatterns_spec (keep : List String) :
    ∀ acc : List String, acc.Nodup →
      ∃ res, applyKeepPatterns acc keep = some res ∧ res.Nodup ∧
        ∀ x, (x ∈ res ↔ x ∈ acc ∧ x ∉ keep) := by
  induction keep with
  | nil =>
    intro acc hnd
    exact ⟨acc, rfl, hnd, fun x => by simp⟩
  | cons p ks ih =>
    intro acc hnd
    by_cases hp : p ∈ acc
    · obtain ⟨res, h1, h2, h3⟩ := ih (acc.erase p) (hnd.erase p)
      refine ⟨res, ?_, h2, ?_⟩
      · rw [applyKeepPatterns, List.foldlM_cons, if_pos hp, pyRemove_of_mem _ _ hp]
        exact h1
      · intro x
        rw [h3, List.Nodup.mem_erase_iff hnd]
        simp only [List.mem_cons]
        tauto
    · obtain ⟨res, h1, h2, h3⟩ := ih acc hnd
      refine ⟨res, ?_, h2, ?_⟩
      · rw [applyKeepPatterns, List.foldlM_cons, if_neg hp]
        exact h1
      · intro x
        rw [h3]
        simp only [List.mem_cons]
        constructor
        · rintro ⟨h4, h5⟩
          refine ⟨h4, ?_⟩
          rintro (rfl | h6)
          · exact hp h4
          · exact h5 h6
        · rintro ⟨h4, h5⟩
          exact ⟨h4, fun h6 => h5 (Or.inr h6)⟩

/-- C1: for user-supplied ignore additions and keep lists, the effective
ignore set `dump_files` walks with is `(default ∪ added) \ removed`,
duplicate-free; the keep removal never raises (the result is `some` and
a keep entry absent from the merged list is skipped), and the
module-level default list is left unchanged. -/
theorem dump_files_effective_ignore_set (added keep : List String) :
    ∃ eff, resolveIgnorePatterns DEFAULT_IGNORE_PATTERNS (some added) (some keep) =
        some (eff, DEFAULT_IGNORE_PATTERNS) ∧
      eff.Nodup ∧
      ∀ x, (x ∈ eff ↔ (x ∈ DEFAULT_IGNORE_PATTERNS ∨ x ∈ added) ∧ x ∉ keep) := by
  obtain ⟨res, h1, h2, h3⟩ :=
    applyKeepPatterns_spec keep (pyDedup (added ++ DEFAULT_IGNORE_PATTERNS))
      (nodup_pyDedup _)
  refine ⟨res, ?_, h2, ?_⟩
  · simp [resolveIgnorePatterns, mergeIgnorePatterns, h1]
  · intro x
    rw [h3, mem_pyDedup]
    simp only [List.mem_append]
    tauto

/-! # C2: is_ignored matches by whole path components -/

/-- C2: `is_ignored` is true iff some path component is literally equal
to an entry of the ignore list; a pattern matching only part of a
component (or a string spanning several components) never fires, since
the test is list membership of each component. -/
theorem is_ignored_component_equality (parts pats : List String) :
    is_ignored parts pats = true ↔ ∃ part, part ∈ parts ∧ part ∈ pats := by
  simp [is_ignored, List.any_eq_true]

/-! # Lemmas: the name order and sorting -/

theorem pyStrLtAux_iff :
    ∀ x y : List Char, pyStrLtAux x y = true ↔ List.Lex (· < ·) x y := by
  intro x
  induction x with
  | nil =>
    intro y
    cases y with
    | nil =>
      simp only [pyStrLtAux, Bool.false_eq_true, false_iff]
      intro h; cases h
    | cons b bs =>
      simp only [pyStrLtAux, true_iff]
      exact List.Lex.nil
  | cons a as ih =>
    intro y
    cases y with
    | nil =>
      simp only [pyStrLtAux, Bool.false_eq_true, false_iff]
      intro h; cases h
    | cons b bs =>
      by_cases hab : a < b
      · simp only [pyStrLtAux, if_pos hab, true_iff]
        exact List.Lex.rel hab
      · by_cases hba : b < a
        · simp only [pyStrLtAux, if_neg hab, if_pos hba, Bool.false_eq_true, false_iff]
          intro h
          cases h with
          | cons h1 => exact lt_irrefl a hba
          | rel h1 => exact hab h1
        · have hab2 : a = b := le_antisymm (not_lt.mp hba) (not_lt.mp hab)
          subst hab2
          simp only [pyStrLtAux, if_neg hab, if_neg hba]
          rw [ih bs]
          constructor
          · intro h; exact List.Lex.cons h
          · intro h
            cases h with
            | cons h1 => exact h1
            | rel h1 => exact absurd h1 hab

theorem pyStrLt_iff_lt (a b : String) : pyStrLt a b = true ↔ a < b :=
  (pyStrLtAux_iff a.data b.data).trans String.lt_iff_toList_lt.symm

theorem nameLe_iff (a b : FSNode) : nameLe a b ↔ a.name ≤ b.name := by
  unfold nameLe
  rw [Bool.eq_false_iff]
  rw [Ne, pyStrLt_iff_lt, not_lt]

instance : IsTotal FSNode nameLe :=
  ⟨fun a b => by rw [nameLe_iff, nameLe_iff]; exact le_total _ _⟩

instance : IsTrans FSNode nameLe :=
  ⟨fun a b c hab hbc => by
    rw [nameLe_iff] at hab hbc ⊢
    exact le_trans hab hbc⟩

theorem sortByName_perm (cs : List FSNode) : (sortByName cs).Perm cs :=
  List.perm_insertionSort nameLe cs

theorem mem_sortByName (c : FSNode) (cs : List FSNode) :
    c ∈ sortByName cs ↔ c ∈ cs :=
  (sortByName_perm cs).mem_iff

theorem sortByName_names_sorted (cs : List FSNode) :
    List.Sorted (fun a b : String => a ≤ b) ((sortByName cs).map FSNode.name) := by
  refine List.Pairwise.map _ ?_ (List.sorted_insertionSort nameLe cs)
  intro a b hab
  exact (nameLe_iff a b).mp hab

/-! # Lemmas: tree entries -/

theorem is_ignored_append (a b pats : List String) :
    is_ignored (a ++ b) pats = (is_ignored a pats || is_ignored b pats) := by
  simp [is_ignored, List.any_append]

theorem nodeEntriesAt_eq (p : List String) (n : FSNode) :
    nodeEntriesAt p n = (p, n.isDir) :: childEntriesAt p n.children := by
  cases n with
  | file nm c => simp [nodeEntriesAt, childEntriesAt, FSNode.children, FSNode.isDir]
  | dir nm cs => simp [nodeEntriesAt, FSNode.children, FSNode.isDir]

theorem entriesUnder_eq (n : FSNode) :
    entriesUnder n = childEntriesAt [] n.children := by
  cases n with
  | file nm c => simp [entriesUnder, childEntriesAt, FSNode.children]
  | dir nm cs => simp [entriesUnder, FSNode.children]

theorem mem_childEntriesAt (p : List String) (cs : List FSNode) (r : List String) (d : Bool) :
    (r, d) ∈ childEntriesAt p cs ↔ ∃ c ∈ cs, (r, d) ∈ nodeEntriesAt (p ++ [c.name]) c := by
  induction cs with
  | nil => simp [childEntriesAt]
  | cons c cs ih =>
    simp only [childEntriesAt, List.mem_append, ih, List.mem_cons]
    constructor
    · rintro (h | ⟨c2, hc2, h⟩)
      · exact ⟨c, Or.inl rfl, h⟩
      · exact ⟨c2, Or.inr hc2, h⟩
    · rintro ⟨c2, (rfl | hc2), h⟩
      · exact Or.inl h
      · exact Or.inr ⟨c2, hc2, h⟩

theorem nodeEntriesAt_extends_aux :
    ∀ (k : Nat) (n : FSNode), sizeOf n ≤ k →
      ∀ (p r : List String) (d : Bool),
        (r, d) ∈ nodeEntriesAt p n → ∃ t, r = p ++ t := by
  intro k
  induction k with
  | zero =>
    intro n hn
    exfalso
    cases n with
    | file nm c => simp only [FSNode.file.sizeOf_spec] at hn; omega
    | dir nm cs => simp only [FSNode.dir.sizeOf_spec] at hn; omega
  | succ k ih =>
    intro n hn p r d hmem
    cases n with
    | file nm c =>
      simp only [nodeEntriesAt, List.mem_singleton, Prod.mk.injEq] at hmem
      exact ⟨[], by simp [hmem.1]⟩
    | dir nm cs =>
      rw [nodeEntriesAt] at hmem
      rcases List.mem_cons.mp hmem with heq | hmem2
      · obtain ⟨h1, _⟩ := Prod.mk.injEq .. ▸ heq
        exact ⟨[], by simp [h1]⟩
      · rw [mem_childEntriesAt] at hmem2
        obtain ⟨c, hc, hmem3⟩ := hmem2
        have hsz : sizeOf c ≤ k := by
          have h1 := List.sizeOf_lt_of_mem hc
          simp only [FSNode.dir.sizeOf_spec] at hn
          omega
        obtain ⟨t, ht⟩ := ih c hsz (p ++ [c.name]) r d hmem3
        exact ⟨c.name :: t, by simp [ht]⟩

theorem nodeEntriesAt_extends (n : FSNode) (p r : List String) (d : Bool)
    (h : (r, d) ∈ nodeEntriesAt p n) : ∃ t, r = p ++ t :=
  nodeEntriesAt_extends_aux (sizeOf n) n le_rfl p r d h

theorem childEntriesAt_extends (p r : List String) (d : Bool) (cs : List FSNode)
    (h : (r, d) ∈ childEntriesAt p cs) : ∃ t, t ≠ [] ∧ r = p ++ t := by
  rw [mem_childEntriesAt] at h
  obtain ⟨c, hc, h2⟩ := h
  obtain ⟨t, ht⟩ := nodeEntriesAt_extends c _ _ _ h2
  exact ⟨c.name :: t, by simp, by simp [ht]⟩

/-! # Lemmas: the tree walk -/

theorem walkEntries_file (pats : List String) (maxD : Nat)
    (rootParts : List String) (fuel : Nat) (p : List String) (nm : String)
    (c : Except String (List String)) :
    walkEntries pats maxD rootParts fuel p (.file nm c) =
      if (rootParts ++ p).length > maxD then []
      else if is_ignored (rootParts ++ p) pats then []
      else if p.isEmpty then [] else [(p, false)] := by
  rw [walkEntries]
  by_cases hA : (rootParts ++ p).length > maxD
  · rw [if_pos hA, if_pos hA]
  · rw [if_neg hA, if_neg hA]
    by_cases hB : is_ignored (rootParts ++ p) pats = true
    · rw [if_pos hB, if_pos hB]
    · rw [if_neg hB, if_neg hB]
      by_cases hC : p.isEmpty = true
      · rw [if_pos hC, if_pos hC]
        cases fuel <;> rfl
      · rw [if_neg hC, if_neg hC]
        cases fuel <;> rfl
  intro name cs f h1 h2
  exact FSNode.noConfusion h1

theorem walkEntries_dir_succ (pats : List String) (maxD : Nat)
    (rootParts : List String) (f : Nat) (p : List String) (nm : String)
    (cs : List FSNode) :
    walkEntries pats maxD rootParts (f + 1) p (.dir nm cs) =
      if (rootParts ++ p).length > maxD then []
      else if is_ignored (rootParts ++ p) pats then []
      else (if p.isEmpty then [] else [(p, true)]) ++
        (sortByName cs).flatMap
          (fun c => walkEntries pats maxD rootParts f (p ++ [c.name]) c) := by
  rw [walkEntries]
  by_cases hA : (rootParts ++ p).length > maxD
  · rw [if_pos hA, if_pos hA]
  · rw [if_neg hA, if_neg hA]
    by_cases hB : is_ignored (rootParts ++ p) pats = true
    · rw [if_pos hB, if_pos hB]
    · rw [if_neg hB, if_neg hB]
      rfl

theorem walkEntries_mem_iff (pats : List String) (maxD : Nat) (rootParts : List String) :
    ∀ (fuel : Nat) (p : List String) (n : FSNode) (r : List String) (d : Bool),
      (rootParts ++ p).length + fuel = maxD + 1 →
      ((r, d) ∈ walkEntries pats maxD rootParts fuel p n ↔
        ((¬ p = [] ∧ r = p ∧ d = n.isDir) ∨ (r, d) ∈ childEntriesAt p n.children) ∧
        is_ignored (rootParts ++ r) pats = false ∧
        (rootParts ++ r).length ≤ maxD) := by
  intro fuel
  induction fuel with
  | zero =>
    intro p n r d hinv
    rw [walkEntries, if_pos (by omega : (rootParts ++ p).length > maxD)]
    simp only [List.not_mem_nil, false_iff]
    rintro ⟨hsel | hchild, hign, hrl⟩
    · obtain ⟨hp, rfl, _⟩ := hsel
      omega
    · obtain ⟨t, ht, rfl⟩ := childEntriesAt_extends _ _ _ _ hchild
      have htl := List.length_pos.mpr ht
      simp only [List.length_append] at hinv hrl
      omega
    · intro name cs f h1 h2
      exact Nat.noConfusion h2
  | succ f ih =>
    intro p n r d hinv
    have hA : ¬ (rootParts ++ p).length > maxD := by omega
    cases n with
    | file nm c =>
      rw [walkEntries_file, if_neg hA]
      by_cases hig : is_ignored (rootParts ++ p) pats
      · rw [if_pos hig]
        simp only [List.not_mem_nil, false_iff]
        rintro ⟨hsel | hchild, hign, hrl⟩
        · obtain ⟨hp, rfl, _⟩ := hsel
          rw [hig] at hign
          cases hign
        · simp [FSNode.children, childEntriesAt] at hchild
      · rw [if_neg hig]
        constructor
        · intro hmem
          by_cases hpe : p.isEmpty
          · rw [if_pos hpe] at hmem
            cases hmem
          · rw [if_neg hpe] at hmem
            simp only [List.mem_singleton, Prod.mk.injEq] at hmem
            obtain ⟨rfl, rfl⟩ := hmem
            refine ⟨Or.inl ⟨?_, rfl, rfl⟩, ?_, by omega⟩
            · intro hp
              rw [hp] at hpe
              exact hpe rfl
            · exact Bool.eq_false_iff.mpr hig
        · rintro ⟨hsel | hchild, hign, hrl⟩
          · obtain ⟨hp, rfl, rfl⟩ := hsel
            rw [if_neg (by simpa [List.isEmpty_iff] using hp)]
            simp [FSNode.isDir]
          · simp [FSNode.children, childEntriesAt] at hchild
    | dir nm cs =>
      rw [walkEntries_dir_succ, if_neg hA]
      by_cases hig : is_ignored (rootParts ++ p) pats
      · rw [if_pos hig]
        simp only [List.not_mem_nil, false_iff]
        rintro ⟨hsel | hchild, hign, hrl⟩
        · obtain ⟨hp, rfl, _⟩ := hsel
          rw [hig] at hign
          cases hign
        · obtain ⟨t, ht, rfl⟩ := childEntriesAt_extends _ _ _ _ hchild
          rw [← List.append_assoc, is_ignored_append, hig] at hign
          simp at hign
      · rw [if_neg hig, List.mem_append]
        have hinv2 : ∀ c : FSNode,
            (rootParts ++ (p ++ [c.name])).length + f = maxD + 1 := by
          intro c
          simp only [List.length_append, List.length_cons, List.length_nil] at hinv ⊢
          omega
        constructor
        · rintro (hself | hflat)
          · by_cases hpe : p.isEmpty
            · rw [if_pos hpe] at hself
              cases hself
            · rw [if_neg hpe] at hself
              simp only [List.mem_singleton, Prod.mk.injEq] at hself
              obtain ⟨rfl, rfl⟩ := hself
              refine ⟨Or.inl ⟨?_, rfl, rfl⟩, Bool.eq_false_iff.mpr hig, by omega⟩
              intro hp
              rw [hp] at hpe
              exact hpe rfl
          · rw [List.mem_flatMap] at hflat
            obtain ⟨c, hc, hmem⟩ := hflat
            rw [mem_sortByName] at hc
            rw [ih (p ++ [c.name]) c r d (hinv2 c)] at hmem
            obtain ⟨hd, hign, hrl⟩ := hmem
            refine ⟨Or.inr ?_, hign, hrl⟩
            show (r, d) ∈ childEntriesAt p cs
            rw [mem_childEntriesAt]
            refine ⟨c, hc, ?_⟩
            rw [nodeEntriesAt_eq]
            rcases hd with ⟨_, rfl, rfl⟩ | hdeep
            · exact List.mem_cons_self _ _
            · exact List.mem_cons_of_mem _ hdeep
        · rintro ⟨hsel | hchild, hign, hrl⟩
          · obtain ⟨hp, rfl, rfl⟩ := hsel
            left
            rw [if_neg (by simpa [List.isEmpty_iff] using hp)]
            simp [FSNode.isDir]
          · right
            replace hchild : (r, d) ∈ childEntriesAt p cs := hchild
            rw [mem_childEntriesAt] at hchild
            obtain ⟨c, hc, hmem⟩ := hchild
            rw [List.mem_flatMap]
            refine ⟨c, (mem_sortByName c cs).mpr hc, ?_⟩
            rw [ih (p ++ [c.name]) c r d (hinv2 c)]
            rw [nodeEntriesAt_eq] at hmem
            rcases List.mem_cons.mp hmem with heq | hdeep
            · rw [Prod.mk.injEq] at heq
              obtain ⟨rfl, rfl⟩ := heq
              exact ⟨Or.inl ⟨by simp, rfl, rfl⟩, hign, hrl⟩
            · exact ⟨Or.inr hdeep, hign, hrl⟩

/-- C3: with the default ignore set, an entry of the tree gets a line in
the `dump_tree` walk iff no component of its full (resolved) path equals
a default pattern and its nesting depth relative to the resolved root is
within the bound — every path with an ignored component is excluded, and
nothing else at or below the depth bound is. -/
theorem dump_tree_exclusion (rootParts : List String) (depth : Nat)
    (root : FSNode) (rel : List String) (d : Bool) :
    (rel, d) ∈ dumpTreeEntries rootParts depth DEFAULT_IGNORE_PATTERNS root ↔
      (rel, d) ∈ entriesUnder root ∧
      is_ignored (rootParts ++ rel) DEFAULT_IGNORE_PATTERNS = false ∧
      rel.length ≤ depth := by
  rw [dumpTreeEntries,
    walkEntries_mem_iff DEFAULT_IGNORE_PATTERNS (rootParts.length + depth) rootParts
      (depth + 1) [] root rel d (by simp only [List.append_nil]; omega)]
  rw [entriesUnder_eq]
  constructor
  · rintro ⟨hsel | hchild, hign, hlen⟩
    · exact absurd rfl hsel.1
    · refine ⟨hchild, hign, ?_⟩
      simp only [List.length_append] at hlen
      omega
  · rintro ⟨hmem, hign, hlen⟩
    refine ⟨Or.inr hmem, hign, ?_⟩
    simp only [List.length_append]
    omega

theorem joinLines_length :
    ∀ lines : List String, lines ≠ [] →
      (joinLines lines).length + 1 = (lines.map String.length).sum + lines.length := by
  intro lines
  induction lines with
  | nil => intro h; exact absurd rfl h
  | cons l ls ih =>
    intro _
    cases ls with
    | nil => simp [joinLines]
    | cons l2 ls2 =>
      have he : joinLines (l :: l2 :: ls2) = l ++ "\n" ++ joinLines (l2 :: ls2) := rfl
      rw [he]
      have h2 := ih (by simp)
      have h3 : ("\n" : String).length = 1 := rfl
      simp only [String.length_append, List.map_cons, List.sum_cons,
        List.length_cons] at *
      omega

/-- C4: `dump_tree` never emits a line for the root itself; the walk
visits each directory's children in ascending lexicographic order of
their name; each included entry renders as `./` followed by the
root-relative path with a trailing `/` exactly for directories; the
output is the newline join of the lines, whose length accounts for
exactly one separating newline between consecutive lines and none at
the end. -/
theorem dump_tree_rendering (rootParts : List String) (depth : Nat)
    (g pats : List String) (root : FSNode) :
    (∀ rel d, (rel, d) ∈ dumpTreeEntries rootParts depth pats root → rel ≠ []) ∧
    (∀ cs : List FSNode,
      List.Sorted (fun a b : String => a ≤ b) ((sortByName cs).map FSNode.name) ∧
      (sortByName cs).Perm cs) ∧
    dump_tree rootParts depth g (some pats) root =
      joinLines ((dumpTreeEntries rootParts depth pats root).map renderEntry) ∧
    (∀ rel d, renderEntry (rel, d) =
      "./" ++ String.intercalate "/" rel ++ (if d then "/" else "")) ∧
    (dumpTreeLines rootParts depth pats root ≠ [] →
      (dump_tree rootParts depth g (some pats) root).length + 1 =
        ((dumpTreeLines rootParts depth pats root).map String.length).sum +
          (dumpTreeLines rootParts depth pats root).length) := by
  refine ⟨?_, ?_, rfl, fun rel d => rfl, ?_⟩
  · intro rel d hmem
    rw [dumpTreeEntries,
      walkEntries_mem_iff pats (rootParts.length + depth) rootParts
        (depth + 1) [] root rel d (by simp only [List.append_nil]; omega)] at hmem
    rcases hmem with ⟨hsel | hchild, _, _⟩
    · exact absurd rfl hsel.1
    · obtain ⟨t, ht, rfl⟩ := childEntriesAt_extends _ _ _ _ hchild
      simpa using ht
  · intro cs
    exact ⟨sortByName_names_sorted cs, sortByName_perm cs⟩
  · intro hne
    exact joinLines_length _ hne

/-! # C5: walk_files on a bad root -/

/-- C5 counterexample: with `recursive=True`, `walk_files` on a missing
root yields an empty sequence with no error (`Path.rglob` checks
`is_dir()` first and returns an empty iterator), so the claim that both
modes surface a `NotADirectoryError`-equivalent fails here. -/
theorem walk_files_missing_root_recursive_counterexample :
    walk_files ["missing"] none true DEFAULT_IGNORE_PATTERNS none = Except.ok [] :=
  rfl

/-- C5 amended: non-recursive mode surfaces the error on iteration
(`FileNotFoundError` for a missing root, `NotADirectoryError` for a file
root), while recursive mode yields an empty sequence without error for
either bad root. -/
theorem walk_files_bad_root (rootParts gl : List String)
    (pats : Option (List String)) (nm : String)
    (c : Except String (List String)) :
    walk_files rootParts none false gl pats =
        Except.error PyOSError.fileNotFoundError ∧
    walk_files rootParts (some (.file nm c)) false gl pats =
        Except.error PyOSError.notADirectoryError ∧
    walk_files rootParts none true gl pats = Except.ok [] ∧
    walk_files rootParts (some (.file nm c)) true gl pats = Except.ok [] :=
  ⟨rfl, rfl, rfl, rfl⟩

/-! # C6: read failures become synthetic error blocks -/

theorem applyKeepPatterns_isSome (keep : List String) :
    ∀ acc : List String, ∃ res, applyKeepPatterns acc keep = some res := by
  induction keep with
  | nil => intro acc; exact ⟨acc, rfl⟩
  | cons p ks ih =>
    intro acc
    by_cases hp : p ∈ acc
    · obtain ⟨res, hres⟩ := ih (acc.erase p)
      refine ⟨res, ?_⟩
      rw [applyKeepPatterns, List.foldlM_cons, if_pos hp, pyRemove_of_mem _ _ hp]
      exact hres
    · obtain ⟨res, hres⟩ := ih acc
      refine ⟨res, ?_⟩
      rw [applyKeepPatterns, List.foldlM_cons, if_neg hp]
      exact hres

theorem resolveIgnorePatterns_isSome (gl : List String)
    (ign keep : Option (List String)) :
    ∃ pats gl2, resolveIgnorePatterns gl ign keep = some (pats, gl2) := by
  cases keep with
  | none => exact ⟨mergeIgnorePatterns gl ign, _, rfl⟩
  | some ks =>
    obtain ⟨res, hres⟩ := applyKeepPatterns_isSome ks (mergeIgnorePatterns gl ign)
    exact ⟨res, _, by rw [resolveIgnorePatterns, hres]; rfl⟩

/-- C6: a walked file whose read raises is dumped as its header line
followed by the single synthetic `// ERROR reading <path>: <message>`
line and the trailing blank; the assembly loop treats files
independently, so the erroring file replaces no other file's block; and
a recursive `dump_files` run (no summarization) always completes with a
dump rather than propagating the read error. -/
theorem dump_files_read_error_block
    (pre post : List (List String × Except String (List String)))
    (p : List String) (msg : String) :
    fileBlock (pathToString p) (Except.error msg) =
      ["// File content of " ++ pathToString p ++ ":",
       "// ERROR reading " ++ pathToString p ++ ": " ++ msg, ""] ∧
    (assembleFiles (pre ++ (p, Except.error msg) :: post)).1 =
      (assembleFiles pre).1 ++
        [["// File content of " ++ pathToString p ++ ":",
          "// ERROR reading " ++ pathToString p ++ ": " ++ msg, ""]] ++
        (assembleFiles post).1 ∧
    (∀ (gl rootParts : List String) (root : Option FSNode)
        (ign keep : Option (List String)) (oracle : String → String → String)
        (σ : List Nat),
      ∃ out gl2, dump_files gl rootParts root true ign keep false oracle σ =
        some (Except.ok (out, gl2))) := by
  refine ⟨rfl, ?_, ?_⟩
  · simp [assembleFiles, fileBlock]
  · intro gl rootParts root ign keep oracle σ
    obtain ⟨pats, gl2, hres⟩ := resolveIgnorePatterns_isSome gl ign keep
    exact ⟨_, gl2, by rw [dump_files, hres]; rfl⟩

/-! # Lemmas: asyncio.gather fills slots by task index -/

theorem gatherStep_length (tasks : List α) (run : α → β)
    (slots : List (Option β)) (j : Nat) :
    (gatherStep tasks run slots j).length = slots.length := by
  rw [gatherStep]
  cases tasks[j]? <;> simp

theorem gatherFoldl_length (tasks : List α) (run : α → β) :
    ∀ (σ : List Nat) (slots : List (Option β)),
      (σ.foldl (gatherStep tasks run) slots).length = slots.length := by
  intro σ
  induction σ with
  | nil => intro slots; rfl
  | cons j σ ih =>
    intro slots
    rw [List.foldl_cons, ih, gatherStep_length]

theorem gatherFoldl_getElem_not_mem (tasks : List α) (run : α → β) :
    ∀ (σ : List Nat) (slots : List (Option β)) (i : Nat), i ∉ σ →
      (σ.foldl (gatherStep tasks run) slots)[i]? = slots[i]? := by
  intro σ
  induction σ with
  | nil => intro slots i _; rfl
  | cons j σ ih =>
    intro slots i hi
    rw [List.foldl_cons, ih _ _ (fun h => hi (List.mem_cons_of_mem _ h))]
    rw [gatherStep]
    cases tasks[j]? with
    | none => rfl
    | some t =>
      apply List.getElem?_set_ne
      intro h
      subst h
      exact hi (List.mem_cons_self _ _)

theorem gatherFoldl_getElem_mem (tasks : List α) (run : α → β) :
    ∀ (σ : List Nat) (slots : List (Option β)) (i : Nat) (t : α),
      tasks[i]? = some t → slots.length = tasks.length → i ∈ σ →
      (σ.foldl (gatherStep tasks run) slots)[i]? = some (some (run t)) := by
  intro σ
  induction σ with
  | nil => intro slots i t _ _ hi; cases hi
  | cons j σ ih =>
    intro slots i t ht hlen hi
    rw [List.foldl_cons]
    by_cases hi2 : i ∈ σ
    · exact ih _ i t ht (by rw [gatherStep_length]; exact hlen) hi2
    · have hij : i = j := by
        rcases List.mem_cons.mp hi with h | h
        · exact h
        · exact absurd h hi2
      subst hij
      rw [gatherFoldl_getElem_not_mem tasks run σ _ i hi2]
      rw [gatherStep, ht]
      have hlt : i < slots.length := by
        obtain ⟨hlt2, _⟩ := List.getElem?_eq_some.mp ht
        rw [hlen]
        exact hlt2
      exact List.getElem?_set_self hlt

theorem sequenceOpts_map_some : ∀ l : List β, sequenceOpts (l.map some) = some l := by
  intro l
  induction l with
  | nil => rfl
  | cons x l ih => simp [sequenceOpts, ih]

/-- `asyncio.gather` returns one result per task, at the task's own
index, for every completion order that eventually runs every task. -/
theorem gatherModel_eq (tasks : List α) (run : α → β) (σ : List Nat)
    (h : σ.Perm (List.range tasks.length)) :
    gatherModel tasks run σ = some (tasks.map run) := by
  have hfill : gatherFill tasks run σ = tasks.map (fun t => some (run t)) := by
    apply List.ext_getElem?
    intro i
    by_cases hi : i < tasks.length
    · have ht : tasks[i]? = some tasks[i] := List.getElem?_eq_getElem hi
      rw [gatherFill, gatherFoldl_getElem_mem tasks run σ _ i tasks[i] ht
        (by simp) (h.mem_iff.mpr (List.mem_range.mpr hi))]
      rw [List.getElem?_map, ht]
      rfl
    · have h1 : (gatherFill tasks run σ).length ≤ i := by
        rw [gatherFill, gatherFoldl_length]
        simp only [List.length_replicate]
        omega
      have h2 : (tasks.map (fun t => some (run t))).length ≤ i := by
        simp only [List.length_map]
        omega
      rw [List.getElem?_eq_none h1, List.getElem?_eq_none h2]
  rw [gatherModel, hfill]
  have hmm : tasks.map (fun t => some (run t)) = (tasks.map run).map some := by
    rw [List.map_map]
    rfl
  rw [hmm, sequenceOpts_map_some]

/-- The closed form of `sum_up_lines_async` for any completion order
covering every task. -/
theorem sum_up_lines_async_eq (oracle : String → String → String)
    (τ : List Nat) (blocks : List (List String)) (paths : List String)
    (hlen : blocks.length = paths.length)
    (hτ : τ.Perm (List.range paths.length)) :
    sum_up_lines_async oracle τ blocks paths =
      some ((paths.zip blocks).map (fun pb =>
        oracle pb.1 ("Sum up the following:\n" ++ pyStrListStr pb.2))) := by
  have htasks : (paths.zip (blocks.map
      (fun line => "Sum up the following:\n" ++ pyStrListStr line))).length =
      paths.length := by
    rw [List.length_zip, List.length_map, hlen]
    simp
  rw [sum_up_lines_async, gatherModel_eq _ _ τ (by rw [htasks]; exact hτ)]
  congr 1
  rw [List.zip_map_right, List.map_map]
  rfl

/-- C7: `sum_up_lines_async` returns exactly one summary per input
block; the i-th result is the oracle's summary of the i-th
`(path, prompt)` pair whatever the completion order (two arbitrary
completion schedules give identical results); and splicing pairs the
i-th block with its own summary. -/
theorem summarizer_preserves_order (oracle : String → String → String)
    (σ σ2 : List Nat) (blocks : List (List String)) (paths : List String)
    (hlen : blocks.length = paths.length)
    (hσ : σ.Perm (List.range paths.length))
    (hσ2 : σ2.Perm (List.range paths.length)) :
    sum_up_lines_async oracle σ blocks paths =
      some ((paths.zip blocks).map (fun pb =>
        oracle pb.1 ("Sum up the following:\n" ++ pyStrListStr pb.2))) ∧
    sum_up_lines_async oracle σ2 blocks paths =
      sum_up_lines_async oracle σ blocks paths ∧
    (∀ results : List String,
      sum_up_lines_async oracle σ blocks paths = some results →
      results.length = blocks.length ∧
      (∀ (i : Nat) (p : String) (b : List String),
        paths[i]? = some p → blocks[i]? = some b →
        results[i]? = some (oracle p ("Sum up the following:\n" ++ pyStrListStr b))) ∧
      (∀ (i : Nat) (b : List String) (r : String),
        blocks[i]? = some b → results[i]? = some r →
        ((blocks.zip results).map
          (fun lr => joinLines lr.1 ++ "\n" ++ lr.2 ++ "\n"))[i]? =
          some (joinLines b ++ "\n" ++ r ++ "\n"))) := by
  have hkey : ∀ τ : List Nat, τ.Perm (List.range paths.length) →
      sum_up_lines_async oracle τ blocks paths =
        some ((paths.zip blocks).map (fun pb =>
          oracle pb.1 ("Sum up the following:\n" ++ pyStrListStr pb.2))) :=
    fun τ hτ => sum_up_lines_async_eq oracle τ blocks paths hlen hτ
  refine ⟨hkey σ hσ, by rw [hkey σ hσ, hkey σ2 hσ2], ?_⟩
  intro results hres
  rw [hkey σ hσ, Option.some.injEq] at hres
  subst hres
  refine ⟨?_, ?_, ?_⟩
  · rw [List.length_map, List.length_zip, hlen]
    simp
  · intro i p b hp hb
    rw [List.getElem?_map]
    have hz : (paths.zip blocks)[i]? = some (p, b) :=
      List.getElem?_zip_eq_some.mpr ⟨hp, hb⟩
    rw [hz]
    rfl
  · intro i b r hb hr
    rw [List.getElem?_map]
    have hz : (blocks.zip ((paths.zip blocks).map (fun pb =>
        oracle pb.1 ("Sum up the following:\n" ++ pyStrListStr pb.2))))[i]? =
        some (b, r) :=
      List.getElem?_zip_eq_some.mpr ⟨hb, hr⟩
    rw [hz]
    rfl

/-- A witness for `summarizer_preserves_order`: three files, completion
order `[0, 2, 1]` (the second file's summary completes last), and the
returned summaries still follow the input order. -/
theorem summarizer_preserves_order_witness :
    sum_up_lines_async (fun p _ => "S:" ++ p) [0, 2, 1]
        [["a"], ["b"], ["c"]] ["p", "q", "r"] =
      some ["S:p", "S:q", "S:r"] := by
  have h := summarizer_preserves_order (fun p _ => "S:" ++ p) [0, 2, 1] [2, 1, 0]
    [["a"], ["b"], ["c"]] ["p", "q", "r"] (by decide) (by decide) (by decide)
  rw [h.1]
  rfl

/-! # C8: summarization round trip -/

theorem joinLines_cons_cons (l x : String) (rest : List String) :
    joinLines (l :: x :: rest) = l ++ "\n" ++ joinLines (x :: rest) :=
  rfl

theorem joinLines_append (l1 l2 : List String) (h1 : l1 ≠ []) (h2 : l2 ≠ []) :
    joinLines (l1 ++ l2) = joinLines l1 ++ "\n" ++ joinLines l2 := by
  induction l1 with
  | nil => exact absurd rfl h1
  | cons l ls ih =>
    cases ls with
    | nil =>
      cases l2 with
      | nil => exact absurd rfl h2
      | cons x rest => rfl
    | cons l2h l2t =>
      rw [List.cons_append, List.cons_append, joinLines_cons_cons]
      rw [← List.cons_append, ih (by simp)]
      rw [joinLines_cons_cons]
      simp [String.append_assoc]

theorem joinLines_flatMap (f : α → List String) :
    ∀ l : List α, (∀ x ∈ l, f x ≠ []) →
      joinLines (l.map (fun x => joinLines (f x))) =
        joinLines (l.flatMap f) := by
  intro l
  induction l with
  | nil => intro _; rfl
  | cons a l ih =>
    intro hne
    cases l with
    | nil =>
      simp only [List.map_cons, List.map_nil, List.flatMap_cons, List.flatMap_nil,
        List.append_nil]
      rfl
    | cons b l2 =>
      have hfa : f a ≠ [] := hne a (by simp)
      have hrest : (b :: l2).flatMap f ≠ [] := by
        have hfb : f b ≠ [] := hne b (by simp)
        simp only [List.flatMap_cons]
        intro hc
        rcases List.append_eq_nil.mp hc with ⟨hc1, _⟩
        exact hfb hc1
      have ih2 := ih (fun x hx => hne x (List.mem_cons_of_mem _ hx))
      rw [List.map_cons] at ih2
      rw [List.map_cons, List.flatMap_cons, List.map_cons, joinLines_cons_cons]
      rw [ih2]
      rw [joinLines_append (f a) _ hfa hrest]

theorem zip_flatMap_fst :
    ∀ (xs : List (List String)) (ys : List String), xs.length = ys.length →
      (xs.zip ys).flatMap (fun p => p.1) = xs.flatMap (fun x => x) := by
  intro xs
  induction xs with
  | nil => intro ys _; rfl
  | cons x xs ih =>
    intro ys hlen
    cases ys with
    | nil => simp at hlen
    | cons y ys =>
      simp only [List.zip_cons_cons, List.flatMap_cons]
      rw [ih ys (by simpa using hlen)]

theorem fileBlock_ne_nil (p : String) (c : Except String (List String)) :
    fileBlock p c ≠ [] := by
  simp [fileBlock]

theorem joinLines_block_with_summary (b : List String) (s : String)
    (hb : b ≠ []) :
    joinLines b ++ "\n" ++ s ++ "\n" = joinLines (b ++ [s, ""]) := by
  rw [joinLines_append b [s, ""] hb (by simp)]
  have h2 : joinLines [s, ""] = s ++ "\n" := by
    rw [joinLines_cons_cons]
    simp [joinLines]
  rw [h2]
  simp [String.append_assoc]

theorem joinLines_splice (zs : List (List String × String))
    (h : ∀ bs ∈ zs, bs.1 ≠ []) :
    joinLines (zs.map (fun lr => joinLines lr.1 ++ "\n" ++ lr.2 ++ "\n")) =
      joinLines (zs.flatMap (fun bs => bs.1 ++ [bs.2, ""])) := by
  rw [← joinLines_flatMap (fun bs : List String × String => bs.1 ++ [bs.2, ""]) zs
    (by intro x _; simp)]
  apply congrArg
  apply List.map_congr_left
  intro bs hbs
  exact joinLines_block_with_summary _ _ (h bs hbs)

/-- C8: over one and the same walk, the summarization-enabled output is
the newline join of the per-file blocks each extended by the two spliced
lines `[summary, ""]`, and the summarization-disabled output is the
newline join of the very same blocks with those two lines dropped
(`fun bs => bs.1` instead of `fun bs => bs.1 ++ [bs.2, ""]`): removing
every summary block from the enabled run's line list yields exactly the
disabled run's output. -/
theorem dump_files_round_trip (gl rootParts : List String) (root : Option FSNode)
    (recursive : Bool) (ign keep : Option (List String))
    (oracle : String → String → String) (σ : List Nat)
    (pats gl2 : List String) (files : List (List String × FSNode))
    (hres : resolveIgnorePatterns gl ign keep = some (pats, gl2))
    (hwalk : walkFilesNodes rootParts root recursive gl2 (some pats) =
      Except.ok files)
    (hσ : σ.Perm (List.range files.length)) :
    ∃ (blocks : List (List String)) (summaries : List String),
      blocks = (assembleFiles (files.map (fun f => (f.1, f.2.readContent)))).1 ∧
      blocks.length = summaries.length ∧
      (∀ b ∈ blocks, b ≠ []) ∧
      (blocks.zip summaries).flatMap (fun bs => bs.1) =
        blocks.flatMap (fun b => b) ∧
      dump_files gl rootParts root recursive ign keep true oracle σ =
        some (Except.ok (joinLines ((blocks.zip summaries).flatMap
          (fun bs => bs.1 ++ [bs.2, ""])), gl2)) ∧
      dump_files gl rootParts root recursive ign keep false oracle σ =
        some (Except.ok (joinLines ((blocks.zip summaries).flatMap
          (fun bs => bs.1)), gl2)) := by
  have hlen : (assembleFiles (files.map (fun f => (f.1, f.2.readContent)))).1.length =
      (assembleFiles (files.map (fun f => (f.1, f.2.readContent)))).2.length := by
    simp [assembleFiles]
  have hlen2 : (assembleFiles (files.map (fun f => (f.1, f.2.readContent)))).2.length =
      files.length := by
    simp [assembleFiles]
  have hsum := sum_up_lines_async_eq oracle σ
    (assembleFiles (files.map (fun f => (f.1, f.2.readContent)))).1
    (assembleFiles (files.map (fun f => (f.1, f.2.readContent)))).2
    hlen (by rw [hlen2]; exact hσ)
  have hbne : ∀ b ∈ (assembleFiles (files.map (fun f => (f.1, f.2.readContent)))).1,
      b ≠ [] := by
    intro b hb
    simp only [assembleFiles, List.map_map, List.mem_map] at hb
    obtain ⟨x, _, hx⟩ := hb
    rw [← hx]
    apply fileBlock_ne_nil
  have hslen : (((assembleFiles (files.map (fun f => (f.1, f.2.readContent)))).2.zip
      (assembleFiles (files.map (fun f => (f.1, f.2.readContent)))).1).map
      (fun pb => oracle pb.1 ("Sum up the following:\n" ++ pyStrListStr pb.2))).length =
      (assembleFiles (files.map (fun f => (f.1, f.2.readContent)))).1.length := by
    rw [List.length_map, List.length_zip, hlen]
    simp
  refine ⟨(assembleFiles (files.map (fun f => (f.1, f.2.readContent)))).1,
    ((assembleFiles (files.map (fun f => (f.1, f.2.readContent)))).2.zip
      (assembleFiles (files.map (fun f => (f.1, f.2.readContent)))).1).map
      (fun pb => oracle pb.1 ("Sum up the following:\n" ++ pyStrListStr pb.2)),
    rfl, hslen.symm, hbne, zip_flatMap_fst _ _ hslen.symm, ?_, ?_⟩
  · simp only [dump_files, hres, hwalk, hsum, if_true]
    rw [joinLines_splice _ (fun bs hbs => hbne _ (List.of_mem_zip hbs).1)]
  · simp only [dump_files, hres, hwalk, Bool.false_eq_true, if_false]
    rw [zip_flatMap_fst _ _ hslen.symm]

/-- A witness for `dump_files_round_trip`: two files, out-of-order
completion `[1, 0]`, and the two outputs decompose over the same
blocks. -/
theorem dump_files_round_trip_witness :
    ∃ (blocks : List (List String)) (summaries : List String),
      blocks = (assembleFiles ([(["r", "a"], FSNode.file "a" (Except.ok ["x"])),
          (["r", "b"], FSNode.file "b" (Except.ok ["y"]))].map
            (fun f => (f.1, f.2.readContent)))).1 ∧
      blocks.length = summaries.length ∧
      (∀ b ∈ blocks, b ≠ []) ∧
      (blocks.zip summaries).flatMap (fun bs => bs.1) =
        blocks.flatMap (fun b => b) ∧
      dump_files ["ig"] ["r"]
          (some (.dir "r" [.file "a" (.ok ["x"]), .file "b" (.ok ["y"])]))
          true none none true (fun p _ => "S:" ++ p) [1, 0] =
        some (Except.ok (joinLines ((blocks.zip summaries).flatMap
          (fun bs => bs.1 ++ [bs.2, ""])), ["ig"])) ∧
      dump_files ["ig"] ["r"]
          (some (.dir "r" [.file "a" (.ok ["x"]), .file "b" (.ok ["y"])]))
          true none none false (fun p _ => "S:" ++ p) [1, 0] =
        some (Except.ok (joinLines ((blocks.zip summaries).flatMap
          (fun bs => bs.1)), ["ig"])) :=
  dump_files_round_trip ["ig"] ["r"]
    (some (.dir "r" [.file "a" (.ok ["x"]), .file "b" (.ok ["y"])]))
    true none none (fun p _ => "S:" ++ p) [1, 0] ["ig"] ["ig"]
    [(["r", "a"], FSNode.file "a" (Except.ok ["x"])),
     (["r", "b"], FSNode.file "b" (Except.ok ["y"]))]
    rfl rfl (by decide)

/-! # C9: the CLI aborts without an API key even for tree-only runs -/

/-- C9 (implicit): `cli.py` line 19 constructs the pydantic settings
object at module import time, and `Settings.openai_api_key` is a
required field with no default, so with no `OPENAI_API_KEY` in the
environment and no `.env` value every invocation — arbitrary arguments,
tree-only runs and runs with summarization disabled included — aborts
with the `ValidationError` before any traversal or output. -/
theorem cli_requires_api_key_at_import (a : CliArgs) (gl : List String)
    (oracle : String → String → String) (σ : List Nat) :
    runCli none none a gl oracle σ =
      Except.error "ValidationError: openai_api_key field required" :=
  rfl

/-! # C10: keep patterns mutate the module-level default list -/

/-- C10 (implicit): when `dump_files` gets `ignore_patterns=None`, the
keep-list removal runs on the module-level `DEFAULT_IGNORE_PATTERNS`
object itself: the global list afterwards has lost exactly the first
occurrence of the keep entry (so it is permanently shorter and every
subsequent call reading the defaults sees the change), a duplicated
name such as `"build"` survives with its second occurrence still
ignored, and a uniquely-occurring name such as `"poetry.lock"` stops
being ignored for later `walk_files` calls that use the defaults. -/
theorem dump_files_keep_mutates_defaults :
    (∀ (gl : List String) (p : String), p ∈ gl →
      resolveIgnorePatterns gl none (some [p]) = some (gl.erase p, gl.erase p) ∧
      (gl.erase p).length < gl.length) ∧
    (∃ g2, resolveIgnorePatterns DEFAULT_IGNORE_PATTERNS none (some ["build"]) =
        some (g2, g2) ∧ g2 ≠ DEFAULT_IGNORE_PATTERNS ∧ "build" ∈ g2) ∧
    (∃ g3, resolveIgnorePatterns DEFAULT_IGNORE_PATTERNS none
        (some ["poetry.lock"]) = some (g3, g3) ∧
      walk_files [] (some (.dir "r" [.file "poetry.lock" (.ok [])])) false
          g3 none = Except.ok [["poetry.lock"]] ∧
      walk_files [] (some (.dir "r" [.file "poetry.lock" (.ok [])])) false
          DEFAULT_IGNORE_PATTERNS none = Except.ok []) := by
  refine ⟨?_, ?_, ?_⟩
  · intro gl p hp
    constructor
    · simp only [resolveIgnorePatterns, mergeIgnorePatterns, applyKeepPatterns,
        List.foldlM_cons, List.foldlM_nil, if_pos hp, pyRemove_of_mem gl p hp]
      rfl
    · have h1 := List.length_erase_of_mem hp
      have h2 : 0 < gl.length := List.length_pos.mpr (List.ne_nil_of_mem hp)
      omega
  · exact ⟨DEFAULT_IGNORE_PATTERNS.erase "build", by decide, by decide, by decide⟩
  · exact ⟨DEFAULT_IGNORE_PATTERNS.erase "poetry.lock", by decide, rfl, rfl⟩

/-- A witness for `dump_files_keep_mutates_defaults`: removing a present
keep entry from a concrete default list shrinks the global list. -/
theorem dump_files_keep_mutates_defaults_witness :
    resolveIgnorePatterns ["a", "b"] none (some ["a"]) = some (["b"], ["b"]) ∧
    ((["a", "b"] : List String).erase "a").length <
      (["a", "b"] : List String).length := by
  have h := dump_files_keep_mutates_defaults.1 ["a", "b"] "a" (by decide)
  exact ⟨h.1, h.2⟩

/-- A witness run of `dump_tree_rendering` on a concrete tree: the line
list is nonempty and the length equation evaluates. -/
theorem dump_tree_rendering_witness :
    dumpTreeLines ["r"] 1 [".git"]
        (FSNode.dir "r" [.file "a.txt" (.ok []), .dir ".git" []]) ≠ [] ∧
    (dump_tree ["r"] 1 [".git"] (some [".git"])
        (FSNode.dir "r" [.file "a.txt" (.ok []), .dir ".git" []])).length + 1 =
      ((dumpTreeLines ["r"] 1 [".git"]
          (FSNode.dir "r" [.file "a.txt" (.ok []), .dir ".git" []])).map
        String.length).sum +
        (dumpTreeLines ["r"] 1 [".git"]
          (FSNode.dir "r" [.file "a.txt" (.ok []), .dir ".git" []])).length := by
  have h := dump_tree_rendering ["r"] 1 [".git"] [".git"]
    (FSNode.dir "r" [.file "a.txt" (.ok []), .dir ".git" []])
  exact ⟨by decide, h.2.2.2.2 (by decide)⟩

end Dumper
